import Mathlib

/-
Verification of the Destination Board Reconciliation Engine of
github-project-boards-stuff.

The Go source (pkg/ghgql/client.go and the board package files bundled with
it) is shallowly embedded here.  The GraphQL transport is the only external
collaborator; its observable behaviour for one run (query results and
per-mutation success or failure) is captured by an `Oracle` record, so every
operation below is a pure, executable function of the board state, the
inputs and the oracle.  Mutations that a run issues are recorded as a list
of `Event`s so that ordering and counting properties can be stated.
-/

namespace BoardSync

/-- Info mirrors `board.Info`: basic data of a Projects V2 project. -/
structure Info where
  id : String
  number : Int
  title : String
  url : String
deriving DecidableEq, Repr

/-- Item mirrors `board.Item`: a candidate content item (issue, PR or draft)
the caller wants on the board.  `nodeID` is the content identifier. -/
structure Item where
  nodeID : String
  number : Int
  title : String
  type : String
deriving DecidableEq, Repr

/-- BoardItem mirrors the `boardItem` struct (item-level id, content id,
title).  `isDraft` records whether the underlying content is a DraftIssue:
the membership-index query of `getProjectItemContentIDs` only matches
`Issue` and `PullRequest` content, so a draft item's content id reads back
as empty there, while `getProjectItems` also matches `DraftIssue`. -/
structure BoardItem where
  itemID : String
  contentID : String
  title : String
  isDraft : Bool
deriving DecidableEq, Repr

/-- The destination board's membership state.  `nextID` mints fresh
item-level identifiers for records created by the add mutation. -/
structure Board where
  items : List BoardItem
  nextID : Nat
deriving DecidableEq, Repr

/-- One run's mutation trace entries. -/
inductive Event where
  | addMut (contentID : String)
  | createProj
  | linkMut (repoID : String)
  | deleteMut (itemID : String) (contentID : String)
deriving DecidableEq, Repr

/-- Oracle fixes, for one run with its fixed owner/title, the behaviour of
the GraphQL transport: whether each read succeeds and whether each mutation
succeeds, plus the query results used by project resolution. -/
structure Oracle where
  indexReadOK : Bool
  addOK : String → Bool
  itemsReadOK : Bool
  deleteOK : String → Bool
  userFind : Except Unit (Option Info)
  orgFind : Except Unit (Option Info)
  create : Except String Info
  repoID : String → String → Except Unit String
  linkErr : String → Option String

/-- Config mirrors `board.Config` (the token/owner/name route into the
transport and are fixed inside the oracle). -/
structure Config where
  token : String
  owner : String
  name : String
  linkRepos : List String
  sync : Bool
deriving DecidableEq, Repr

/-- Content identifiers visible to `getProjectItemContentIDs`: the query's
inline fragments only match Issue and PullRequest content, so draft items
contribute an empty id, which the loop drops. -/
def indexIDs (b : Board) : List String :=
  (b.items.filter (fun it => !it.isDraft && it.contentID != "")).map (·.contentID)

/-- Content identifiers visible to `getProjectItems` (drafts included):
the board's membership by content identifier. -/
def memberIDs (b : Board) : List String :=
  (b.items.filter (fun it => it.contentID != "")).map (·.contentID)

/-- Membership by content identifier, as a set. -/
def memberFin (b : Board) : Finset String :=
  (memberIDs b).toFinset

/-- The `currentIDs` index built at the top of `removeStaleItems`: every
non-empty candidate content identifier. -/
def currentContentIDs (items : List Item) : List String :=
  (items.filter (fun it => it.nodeID != "")).map (·.nodeID)

/-- Content identifiers of the candidates `addItems` can actually add:
non-empty id and not a draft issue. -/
def ndContentIDs (items : List Item) : List String :=
  (items.filter (fun it => it.nodeID != "" && it.type != "DraftIssue")).map (·.nodeID)

/-- Set of all non-empty candidate content identifiers. -/
def candFinAll (items : List Item) : Finset String :=
  (currentContentIDs items).toFinset

/-- Set of content identifiers of non-draft candidates. -/
def candFinND (items : List Item) : Finset String :=
  (ndContentIDs items).toFinset

/-- Effect of a successful `addProjectV2ItemById` mutation: a new
membership record for the content, with a freshly minted item id. -/
def appendItem (b : Board) (it : Item) : Board :=
  { items := b.items ++ [⟨"item-" ++ toString b.nextID, it.nodeID, it.title, false⟩],
    nextID := b.nextID + 1 }

/-- Accumulated result of the add phase. -/
structure AddOut where
  board : Board
  added : Nat
  skipped : Nat
  events : List Event
deriving DecidableEq, Repr

/-- The per-candidate loop of `addItems`: skip on missing node id, skip on
draft issues, skip when the content id is in the pre-computed membership
index, otherwise issue the add mutation and count added on success or
skipped on failure.  The index `existingIDs` is computed once before the
loop and never updated inside it, exactly as in the source. -/
def addLoop (o : Oracle) (existingIDs : List String) : List Item → AddOut → AddOut
  | [], st => st
  | item :: rest, st =>
    if item.nodeID = "" then
      addLoop o existingIDs rest { st with skipped := st.skipped + 1 }
    else if item.type = "DraftIssue" then
      addLoop o existingIDs rest { st with skipped := st.skipped + 1 }
    else if existingIDs.contains item.nodeID then
      addLoop o existingIDs rest { st with skipped := st.skipped + 1 }
    else
      if o.addOK item.nodeID then
        addLoop o existingIDs rest
          { st with
            board := appendItem st.board item
            added := st.added + 1
            events := st.events ++ [Event.addMut item.nodeID] }
      else
        addLoop o existingIDs rest
          { st with
            skipped := st.skipped + 1
            events := st.events ++ [Event.addMut item.nodeID] }

/-- Model of `addItems`: build the membership index (falling back to an empty index
when the read fails, with a warning), then run the candidate loop.  The
returned error is the function's `err` result, which the source always
leaves nil. -/
def addItems (o : Oracle) (b : Board) (items : List Item) : AddOut × Option String :=
  let existingIDs := if o.indexReadOK then indexIDs b else []
  (addLoop o existingIDs items ⟨b, 0, 0, []⟩, none)

/-- Result of the stale-removal phase. -/
structure RemoveOut where
  board : Board
  removed : Nat
  error : Option String
  events : List Event
deriving DecidableEq, Repr

/-- The staleness test of `removeStaleItems`: non-empty content id that is
not in the current candidate set. -/
def isStale (currentIDs : List String) (it : BoardItem) : Bool :=
  it.contentID != "" && !currentIDs.contains it.contentID

/-- Model of `removeStaleItems`: index the candidates' content ids, re-read the full
membership (an error there aborts the phase with an error result), then
issue one delete mutation per stale item; a failed delete leaves the record
in place and the loop continues. -/
def removeStaleItems (o : Oracle) (b : Board) (currentItems : List Item) : RemoveOut :=
  let currentIDs := currentContentIDs currentItems
  if !o.itemsReadOK then
    ⟨b, 0, some "listing project items", []⟩
  else
    let targets := b.items.filter (isStale currentIDs)
    ⟨{ b with items := b.items.filter (fun it => !(isStale currentIDs it && o.deleteOK it.itemID)) },
      (targets.filter (fun it => o.deleteOK it.itemID)).length,
      none,
      targets.map (fun it => Event.deleteMut it.itemID it.contentID)⟩

/-- Accumulated result of the repository-linking loop. -/
structure LinkOut where
  linked : Nat
  skipped : Nat
  events : List Event
deriving DecidableEq, Repr

/-- Behaviour of `strings.SplitN(repo, "/", 2)`: split at the first slash only. -/
def splitRepoN2 (s : String) : List String :=
  match s.splitOn "/" with
  | [x] => [x]
  | x :: rest => [x, String.intercalate "/" rest]
  | [] => []

/-- The per-repo loop of `LinkProjectToRepositories`: malformed entries,
repo-resolution failures and link-mutation errors (whether already-linked
or not) all count as skipped and the loop continues. -/
def linkLoop (o : Oracle) : List String → LinkOut → LinkOut
  | [], st => st
  | repo :: rest, st =>
    match splitRepoN2 repo with
    | [owner, name] =>
      match o.repoID owner name with
      | .error _ => linkLoop o rest { st with skipped := st.skipped + 1 }
      | .ok rid =>
        if rid = "" then
          linkLoop o rest { st with skipped := st.skipped + 1 }
        else
          match o.linkErr rid with
          | some _ =>
            linkLoop o rest
              { st with
                skipped := st.skipped + 1
                events := st.events ++ [Event.linkMut rid] }
          | none =>
            linkLoop o rest
              { st with
                linked := st.linked + 1
                events := st.events ++ [Event.linkMut rid] }
    | _ => linkLoop o rest { st with skipped := st.skipped + 1 }

/-- Model of `LinkProjectToRepositories`; its `err` result is always nil. -/
def LinkProjectToRepositories (o : Oracle) (repos : List String) : LinkOut × Option String :=
  (linkLoop o repos ⟨0, 0, []⟩, none)

/-- Model of `FindProject`: try the user-projects query, fall back to the
org-projects query, and return `nil, nil` in every remaining case —
transport errors included. -/
def FindProject (o : Oracle) : Option Info × Option String :=
  match o.userFind with
  | .ok (some p) => (some p, none)
  | _ =>
    match o.orgFind with
    | .ok (some p) => (some p, none)
    | _ => (none, none)

/-- Observable outcome of one `UpdateBoard` run.  `summaryPrinted` records
whether the final board-URL summary line was reached. -/
structure RunOut where
  board : Board
  err : Option String
  summaryPrinted : Bool
  added : Nat
  skipped : Nat
  events : List Event

/-- The tail of `UpdateBoard` after a project id is in hand: add items
(aborting only on a non-nil add error, which never occurs), link repos with
errors merely logged, optionally prune stale items with errors merely
logged, then print the summary. -/
def updateBoardRest (o : Oracle) (config : Config) (b : Board) (items : List Item)
    (ev0 : List Event) : RunOut :=
  let ar := addItems o b items
  match ar.2 with
  | some e =>
    ⟨ar.1.board, some ("adding items: " ++ e), false, ar.1.added, ar.1.skipped,
      ev0 ++ ar.1.events⟩
  | none =>
    let linkEvents :=
      if config.linkRepos.isEmpty then []
      else (LinkProjectToRepositories o config.linkRepos).1.events
    if config.sync then
      let rr := removeStaleItems o ar.1.board items
      ⟨rr.board, none, true, ar.1.added, ar.1.skipped,
        ev0 ++ ar.1.events ++ linkEvents ++ rr.events⟩
    else
      ⟨ar.1.board, none, true, ar.1.added, ar.1.skipped,
        ev0 ++ ar.1.events ++ linkEvents⟩

/-- Model of `UpdateBoard`: resolve the board (find, else create — `Event.createProj`
records the creation attempt), returning a hard error when finding reports
an error (dead in practice) or creation fails; otherwise run the rest. -/
def UpdateBoard (o : Oracle) (config : Config) (b : Board) (items : List Item) : RunOut :=
  let fr := FindProject o
  match fr.2 with
  | some e => ⟨b, some ("searching for project: " ++ e), false, 0, 0, []⟩
  | none =>
    match fr.1 with
    | some _ => updateBoardRest o config b items []
    | none =>
      match o.create with
      | .error e =>
        ⟨b, some ("creating project: " ++ e), false, 0, 0, [Event.createProj]⟩
      | .ok _ => updateBoardRest o config b items [Event.createProj]

/-- FieldOption mirrors `board.FieldOption`: a single-select option. -/
structure FieldOption where
  id : String
  name : String
deriving DecidableEq, Repr

/-- FieldDef mirrors `board.FieldDef`: one custom field with its options. -/
structure FieldDef where
  id : String
  name : String
  type : String
  options : List FieldOption
deriving DecidableEq, Repr

/-- FieldMap mirrors `board.FieldMap` (field name → definition); the Go map
is modelled as an association list queried through `lookupFM`. -/
abbrev FieldMap := List (String × FieldDef)

/-- Map lookup on a `FieldMap`: the most recent binding for a name wins. -/
def lookupFM : FieldMap → String → Option FieldDef
  | [], _ => none
  | (k, v) :: rest, key => if k = key then some v else lookupFM rest key

/-- Map assignment on a `FieldMap`: a new binding shadows any older one. -/
def insertFM (m : FieldMap) (k : String) (v : FieldDef) : FieldMap :=
  (k, v) :: m

/-- FieldValue mirrors `board.FieldValue`. -/
structure FieldValue where
  singleSelectOptionID : String := ""
  text : String := ""
deriving DecidableEq, Repr

/-- A field-value mutation actually sent by `updateProjectV2ItemFieldValue`. -/
inductive ItemMutation where
  | setOption (fieldID : String) (optionID : String)
  | setText (fieldID : String) (value : String)
deriving DecidableEq, Repr

/-- Per-character lowercase of a string, modelling `strings.ToLower` as the
option-name comparisons use it. -/
def lowerStr (s : String) : String :=
  ⟨s.data.map Char.toLower⟩

/-- Payload selection of `UpdateItemField`: an option id when present, else
text when present, else no mutation at all. -/
def updateItemFieldMut (fieldID : String) (value : FieldValue) : Option ItemMutation :=
  if value.singleSelectOptionID != "" then some (.setOption fieldID value.singleSelectOptionID)
  else if value.text != "" then some (.setText fieldID value.text)
  else none

/-- Model of `ResolveOptionID`: first option whose name matches case-insensitively. -/
def ResolveOptionID (field : FieldDef) (optionName : String) : Option String :=
  let lower := lowerStr optionName
  (field.options.find? (fun opt => lowerStr opt.name == lower)).map (·.id)

/-- One entry of the `SetItemFields` loop: empty desired values, unknown
fields and unresolvable single-select options all issue no mutation. -/
def setFieldStep (destFields : FieldMap) (fieldName desiredValue : String) : List ItemMutation :=
  if desiredValue = "" then []
  else
    match lookupFM destFields fieldName with
    | none => []
    | some destField =>
      if destField.type = "SINGLE_SELECT" then
        match ResolveOptionID destField desiredValue with
        | none => []
        | some optID => (updateItemFieldMut destField.id { singleSelectOptionID := optID }).toList
      else
        (updateItemFieldMut destField.id { text := desiredValue }).toList

/-- Model of `SetItemFields`: the field-value mutations issued for one item's
name → value entries (a mutation failure is only logged, so the issued
set is oracle-independent). -/
def SetItemFields : List (String × String) → FieldMap → List ItemMutation
  | [], _ => []
  | (fieldName, desiredValue) :: rest, destFields =>
    setFieldStep destFields fieldName desiredValue ++ SetItemFields rest destFields

/-- FieldSpec mirrors `board.FieldSpec`: a desired custom field. -/
structure FieldSpec where
  name : String
  type : String
  options : List String
deriving DecidableEq, Repr

/-- Model of `countMissingOptions`: how many requested option names are absent from
the field, compared case-insensitively. -/
def countMissingOptions (field : FieldDef) (needed : List String) : Nat :=
  let haveL := field.options.map (fun opt => lowerStr opt.name)
  (needed.filter (fun name => !haveL.contains (lowerStr name))).length

/-- State threaded through `EnsureFields`: the evolving field map, the field
names whose creation was attempted (one create mutation each), and the
(name, missing-option count) figures computed for already-present
single-select specs — the logged surface of option divergence. -/
structure EnsureState where
  fields : FieldMap
  createAttempts : List String
  reports : List (String × Nat)
deriving DecidableEq, Repr

/-- The per-spec loop of `EnsureFields`: a present field is never mutated
(for single-select specs with options its missing-option count is computed
and surfaced); an absent field gets one creation attempt, and on success
the returned definition is stored in the map. -/
def ensureLoop (createRes : FieldSpec → Option FieldDef) :
    List FieldSpec → EnsureState → EnsureState
  | [], st => st
  | spec :: rest, st =>
    match lookupFM st.fields spec.name with
    | some existingField =>
      if spec.type == "SINGLE_SELECT" && !spec.options.isEmpty then
        ensureLoop createRes rest
          { st with reports :=
              st.reports ++ [(spec.name, countMissingOptions existingField spec.options)] }
      else
        ensureLoop createRes rest st
    | none =>
      match createRes spec with
      | none =>
        ensureLoop createRes rest
          { st with createAttempts := st.createAttempts ++ [spec.name] }
      | some fd =>
        ensureLoop createRes rest
          { st with
            createAttempts := st.createAttempts ++ [spec.name]
            fields := insertFM st.fields spec.name fd }

/-- Model of `EnsureFields`, started from the destination board's field map. -/
def EnsureFields (createRes : FieldSpec → Option FieldDef) (needed : List FieldSpec)
    (existing : FieldMap) : EnsureState :=
  ensureLoop createRes needed ⟨existing, [], []⟩

/-- Board resolution fails for a run when the find step yields no project
and the create step fails: the only fatal situation of `UpdateBoard`. -/
def boardResolutionFails (o : Oracle) : Prop :=
  (FindProject o).1 = none ∧ ∃ e, o.create = Except.error e

/-- A sample resolved project. -/
def someInfo : Info :=
  ⟨"PVT_1", 1, "My Board", "https://example.test/board"⟩

/-- A transport on which every read and mutation succeeds and the project
is found neither under the user nor under the organization. -/
def happyOracle : Oracle where
  indexReadOK := true
  addOK := fun _ => true
  itemsReadOK := true
  deleteOK := fun _ => true
  userFind := .ok none
  orgFind := .ok none
  create := .ok someInfo
  repoID := fun _ _ => .ok "R1"
  linkErr := fun _ => none

/-- A transport on which both project-search queries fail and creation
fails too. -/
def resolutionFailOracle : Oracle :=
  { happyOracle with userFind := .error (), orgFind := .error (), create := .error "boom" }

/-- A board with no items. -/
def emptyBoard : Board := ⟨[], 0⟩

/-- A plain issue candidate. -/
def candX : Item := ⟨"X1", 1, "x", "Issue"⟩

/-- A second, distinct issue candidate. -/
def candY : Item := ⟨"Y1", 2, "y", "Issue"⟩

/-- A draft-issue candidate. -/
def candDraft : Item := ⟨"D1", 7, "d", "DraftIssue"⟩

/-- A board item whose content could not be read (empty content id). -/
def contentlessItem : BoardItem := ⟨"it-0", "", "broken", false⟩

/-- A board holding only the contentless item. -/
def boardContentless : Board := ⟨[contentlessItem], 1⟩

/-- A board already holding candX's content. -/
def boardWithX : Board := ⟨[⟨"it-7", "X1", "x", false⟩], 8⟩

/-- A run configuration with pruning requested. -/
def cfgSync : Config := ⟨"tok", "me", "My Board", [], true⟩

/-- A single-select Status field with one option named Done. -/
def statusField : FieldDef := ⟨"F1", "Status", "SINGLE_SELECT", [⟨"O1", "Done"⟩]⟩

/-- A destination field map holding only the Status field. -/
def destFields1 : FieldMap := [("Status", statusField)]

/-- A field spec asking for Status with options Done and Tracked. -/
def specStatus : FieldSpec := ⟨"Status", "SINGLE_SELECT", ["Done", "Tracked"]⟩

/-- A field-creation transport on which every creation fails. -/
def noCreate : FieldSpec → Option FieldDef := fun _ => none

lemma mem_indexIDs {b : Board} {x : String} :
    x ∈ indexIDs b ↔ ∃ it ∈ b.items, it.isDraft = false ∧ it.contentID = x ∧ x ≠ "" := by
  simp only [indexIDs, List.mem_map, List.mem_filter, Bool.and_eq_true, Bool.not_eq_true',
    bne_iff_ne, ne_eq]
  constructor
  · rintro ⟨it, ⟨hmem, hd, hc⟩, rfl⟩
    exact ⟨it, hmem, hd, rfl, hc⟩
  · rintro ⟨it, hmem, hd, rfl, hc⟩
    exact ⟨it, ⟨hmem, hd, hc⟩, rfl⟩

lemma mem_memberIDs {b : Board} {x : String} :
    x ∈ memberIDs b ↔ ∃ it ∈ b.items, it.contentID = x ∧ x ≠ "" := by
  simp only [memberIDs, List.mem_map, List.mem_filter, bne_iff_ne, ne_eq]
  constructor
  · rintro ⟨it, ⟨hmem, hc⟩, rfl⟩
    exact ⟨it, hmem, rfl, hc⟩
  · rintro ⟨it, hmem, rfl, hc⟩
    exact ⟨it, ⟨hmem, hc⟩, rfl⟩

lemma mem_currentContentIDs {items : List Item} {x : String} :
    x ∈ currentContentIDs items ↔ ∃ it ∈ items, it.nodeID = x ∧ x ≠ "" := by
  simp only [currentContentIDs, List.mem_map, List.mem_filter, bne_iff_ne, ne_eq]
  constructor
  · rintro ⟨it, ⟨hmem, hc⟩, rfl⟩
    exact ⟨it, hmem, rfl, hc⟩
  · rintro ⟨it, hmem, rfl, hc⟩
    exact ⟨it, ⟨hmem, hc⟩, rfl⟩

lemma mem_ndContentIDs {items : List Item} {x : String} :
    x ∈ ndContentIDs items ↔
      ∃ it ∈ items, it.nodeID = x ∧ x ≠ "" ∧ it.type ≠ "DraftIssue" := by
  simp only [ndContentIDs, List.mem_map, List.mem_filter, Bool.and_eq_true, bne_iff_ne, ne_eq]
  constructor
  · rintro ⟨it, ⟨hmem, hc, ht⟩, rfl⟩
    exact ⟨it, hmem, rfl, hc, ht⟩
  · rintro ⟨it, hmem, rfl, hc, ht⟩
    exact ⟨it, ⟨hmem, hc, ht⟩, rfl⟩

lemma indexIDs_appendItem {b : Board} {it : Item} (h : it.nodeID ≠ "") :
    indexIDs (appendItem b it) = indexIDs b ++ [it.nodeID] := by
  simp [indexIDs, appendItem, List.filter_append, h]

lemma memberIDs_appendItem {b : Board} {it : Item} (h : it.nodeID ≠ "") :
    memberIDs (appendItem b it) = memberIDs b ++ [it.nodeID] := by
  simp [memberIDs, appendItem, List.filter_append, h]

lemma addLoop_counts (o : Oracle) (ex : List String) :
    ∀ (items : List Item) (st : AddOut),
      (addLoop o ex items st).added + (addLoop o ex items st).skipped
        = st.added + st.skipped + items.length := by
  intro items
  induction items with
  | nil => intro st; simp [addLoop]
  | cons item rest ih =>
    intro st
    simp only [addLoop]
    split_ifs <;> rw [ih] <;> simp <;> omega

/-- C9: every candidate bumps exactly one of the two counters of `addItems`
(missing content id, draft, already-present and failed-add count as
skipped; a successful add counts as added), so added + skipped equals the
input length, and the function's error result is always nil. -/
theorem addItems_counts_partition (o : Oracle) (b : Board) (items : List Item) :
    (addItems o b items).1.added + (addItems o b items).1.skipped = items.length
      ∧ (addItems o b items).2 = none := by
  refine ⟨?_, rfl⟩
  simpa using addLoop_counts o (if o.indexReadOK then indexIDs b else []) items ⟨b, 0, 0, []⟩

lemma addLoop_cons_empty {o : Oracle} {ex : List String} {item : Item} {rest : List Item}
    {st : AddOut} (h1 : item.nodeID = "") :
    addLoop o ex (item :: rest) st = addLoop o ex rest { st with skipped := st.skipped + 1 } := by
  simp [addLoop, h1]

lemma addLoop_cons_draft {o : Oracle} {ex : List String} {item : Item} {rest : List Item}
    {st : AddOut} (h1 : item.nodeID ≠ "") (h2 : item.type = "DraftIssue") :
    addLoop o ex (item :: rest) st = addLoop o ex rest { st with skipped := st.skipped + 1 } := by
  simp [addLoop, h1, h2]

lemma addLoop_cons_present {o : Oracle} {ex : List String} {item : Item} {rest : List Item}
    {st : AddOut} (h1 : item.nodeID ≠ "") (h2 : item.type ≠ "DraftIssue")
    (h3 : item.nodeID ∈ ex) :
    addLoop o ex (item :: rest) st = addLoop o ex rest { st with skipped := st.skipped + 1 } := by
  simp [addLoop, h1, h2, h3]

lemma addLoop_cons_new_ok {o : Oracle} {ex : List String} {item : Item} {rest : List Item}
    {st : AddOut} (h1 : item.nodeID ≠ "") (h2 : item.type ≠ "DraftIssue")
    (h3 : item.nodeID ∉ ex) (h4 : o.addOK item.nodeID = true) :
    addLoop o ex (item :: rest) st = addLoop o ex rest
      { st with
        board := appendItem st.board item
        added := st.added + 1
        events := st.events ++ [Event.addMut item.nodeID] } := by
  simp [addLoop, h1, h2, h3, h4]

lemma addLoop_cons_new_fail {o : Oracle} {ex : List String} {item : Item} {rest : List Item}
    {st : AddOut} (h1 : item.nodeID ≠ "") (h2 : item.type ≠ "DraftIssue")
    (h3 : item.nodeID ∉ ex) (h4 : o.addOK item.nodeID = false) :
    addLoop o ex (item :: rest) st = addLoop o ex rest
      { st with
        skipped := st.skipped + 1
        events := st.events ++ [Event.addMut item.nodeID] } := by
  simp [addLoop, h1, h2, h3, h4]

lemma addLoop_items_prefix (o : Oracle) (ex : List String) :
    ∀ (items : List Item) (st : AddOut),
      ∃ ext, (addLoop o ex items st).board.items = st.board.items ++ ext := by
  intro items
  induction items with
  | nil => intro st; exact ⟨[], by simp [addLoop]⟩
  | cons item rest ih =>
    intro st
    by_cases h1 : item.nodeID = ""
    · rw [addLoop_cons_empty h1]; exact ih _
    by_cases h2 : item.type = "DraftIssue"
    · rw [addLoop_cons_draft h1 h2]; exact ih _
    by_cases h3 : item.nodeID ∈ ex
    · rw [addLoop_cons_present h1 h2 h3]; exact ih _
    by_cases h4 : o.addOK item.nodeID = true
    · rw [addLoop_cons_new_ok h1 h2 h3 h4]
      obtain ⟨ext, hext⟩ := ih { st with
        board := appendItem st.board item
        added := st.added + 1
        events := st.events ++ [Event.addMut item.nodeID] }
      refine ⟨⟨"item-" ++ toString st.board.nextID, item.nodeID, item.title, false⟩ :: ext, ?_⟩
      rw [hext]
      simp [appendItem]
    · rw [Bool.not_eq_true] at h4
      rw [addLoop_cons_new_fail h1 h2 h3 h4]
      exact ih _

lemma mem_indexIDs_addLoop (o : Oracle) (ex : List String) (items : List Item) (st : AddOut)
    {x : String} (h : x ∈ indexIDs st.board) :
    x ∈ indexIDs (addLoop o ex items st).board := by
  obtain ⟨ext, hext⟩ := addLoop_items_prefix o ex items st
  rw [mem_indexIDs] at h ⊢
  obtain ⟨it, hmem, hrest⟩ := h
  exact ⟨it, by rw [hext]; exact List.mem_append_left _ hmem, hrest⟩

lemma addLoop_covers (o : Oracle) (ex : List String) (hadd : ∀ id, o.addOK id = true) :
    ∀ (items : List Item) (st : AddOut),
      (∀ id ∈ ex, id ∈ indexIDs st.board) →
      ∀ item ∈ items, item.nodeID ≠ "" → item.type ≠ "DraftIssue" →
        item.nodeID ∈ indexIDs (addLoop o ex items st).board := by
  intro items
  induction items with
  | nil => intro st _ item hmem; simp at hmem
  | cons item rest ih =>
    intro st hsub item' hmem h1 h2
    by_cases hA : item.nodeID = ""
    · rw [addLoop_cons_empty hA]
      rcases List.mem_cons.mp hmem with rfl | hmem'
      · exact absurd hA h1
      · exact ih { st with skipped := st.skipped + 1 } hsub item' hmem' h1 h2
    by_cases hB : item.type = "DraftIssue"
    · rw [addLoop_cons_draft hA hB]
      rcases List.mem_cons.mp hmem with rfl | hmem'
      · exact absurd hB h2
      · exact ih { st with skipped := st.skipped + 1 } hsub item' hmem' h1 h2
    by_cases hC : item.nodeID ∈ ex
    · rw [addLoop_cons_present hA hB hC]
      rcases List.mem_cons.mp hmem with rfl | hmem'
      · exact mem_indexIDs_addLoop o ex rest _ (hsub _ hC)
      · exact ih { st with skipped := st.skipped + 1 } hsub item' hmem' h1 h2
    rw [addLoop_cons_new_ok hA hB hC (hadd item.nodeID)]
    have hgrow : ∀ id ∈ ex,
        id ∈ indexIDs (appendItem st.board item) := by
      intro id hid
      rw [indexIDs_appendItem hA]
      exact List.mem_append_left _ (hsub id hid)
    rcases List.mem_cons.mp hmem with rfl | hmem'
    · refine mem_indexIDs_addLoop o ex rest _ ?_
      rw [indexIDs_appendItem h1]
      simp
    · exact ih
        { st with
          board := appendItem st.board item
          added := st.added + 1
          events := st.events ++ [Event.addMut item.nodeID] }
        hgrow item' hmem' h1 h2

lemma addLoop_skip_all (o : Oracle) (ex : List String) :
    ∀ (items : List Item) (st : AddOut),
      (∀ item ∈ items,
        item.nodeID = "" ∨ item.type = "DraftIssue" ∨ item.nodeID ∈ ex) →
      (addLoop o ex items st).board = st.board ∧ (addLoop o ex items st).added = st.added
        ∧ (addLoop o ex items st).skipped = st.skipped + items.length := by
  intro items
  induction items with
  | nil => intro st _; simp [addLoop]
  | cons item rest ih =>
    intro st h
    have hhead := h item (by simp)
    have htail : ∀ it ∈ rest,
        it.nodeID = "" ∨ it.type = "DraftIssue" ∨ it.nodeID ∈ ex :=
      fun it hit => h it (List.mem_cons_of_mem _ hit)
    have hstep : addLoop o ex (item :: rest) st
        = addLoop o ex rest { st with skipped := st.skipped + 1 } := by
      by_cases hA : item.nodeID = ""
      · exact addLoop_cons_empty hA
      by_cases hB : item.type = "DraftIssue"
      · exact addLoop_cons_draft hA hB
      rcases hhead with h' | h' | h'
      · exact absurd h' hA
      · exact absurd h' hB
      · exact addLoop_cons_present hA hB h'
    rw [hstep]
    obtain ⟨e1, e2, e3⟩ := ih _ htail
    exact ⟨e1, e2, by rw [e3]; simp; omega⟩

/-- C1: Item Set Synchronizer idempotence.  With the membership-index read
and every add mutation succeeding, running `addItems` a second time with
the same candidate list against the resulting board adds nothing: every
candidate is counted as skipped, the board state is unchanged, and in
particular membership by content identifier is identical after the first
and after the second run. -/
theorem addItems_second_run_noop (o : Oracle) (b : Board) (items : List Item)
    (hidx : o.indexReadOK = true) (hadd : ∀ id, o.addOK id = true) :
    (addItems o (addItems o b items).1.board items).1.added = 0
      ∧ (addItems o (addItems o b items).1.board items).1.skipped = items.length
      ∧ (addItems o (addItems o b items).1.board items).1.board = (addItems o b items).1.board
      ∧ memberFin (addItems o (addItems o b items).1.board items).1.board
          = memberFin (addItems o b items).1.board := by
  have hb1 : (addItems o b items).1 = addLoop o (indexIDs b) items ⟨b, 0, 0, []⟩ := by
    simp [addItems, hidx]
  set b1 := (addItems o b items).1.board with hb1def
  have hcov : ∀ item ∈ items, item.nodeID ≠ "" → item.type ≠ "DraftIssue" →
      item.nodeID ∈ indexIDs b1 := by
    intro item hmem h1 h2
    rw [hb1def, hb1]
    exact addLoop_covers o (indexIDs b) hadd items ⟨b, 0, 0, []⟩ (fun id h => h) item hmem h1 h2
  have hskip : ∀ item ∈ items,
      item.nodeID = "" ∨ item.type = "DraftIssue" ∨ item.nodeID ∈ indexIDs b1 := by
    intro item hmem
    by_cases h1 : item.nodeID = ""
    · exact Or.inl h1
    by_cases h2 : item.type = "DraftIssue"
    · exact Or.inr (Or.inl h2)
    exact Or.inr (Or.inr (hcov item hmem h1 h2))
  have h2nd : (addItems o b1 items).1 = addLoop o (indexIDs b1) items ⟨b1, 0, 0, []⟩ := by
    simp [addItems, hidx]
  obtain ⟨e1, e2, e3⟩ := addLoop_skip_all o (indexIDs b1) items ⟨b1, 0, 0, []⟩ hskip
  rw [h2nd]
  refine ⟨by simpa using e2, by simpa using e3, by simpa using e1, ?_⟩
  rw [e1]

/-- C1 witness: a concrete run (one fresh issue and one already-present
issue) on a transport where everything succeeds. -/
theorem addItems_second_run_noop_witness :
    happyOracle.indexReadOK = true ∧ (∀ id, happyOracle.addOK id = true)
      ∧ ((addItems happyOracle (addItems happyOracle boardWithX [candX, candY]).1.board
            [candX, candY]).1.added = 0
        ∧ (addItems happyOracle (addItems happyOracle boardWithX [candX, candY]).1.board
            [candX, candY]).1.skipped = [candX, candY].length
        ∧ (addItems happyOracle (addItems happyOracle boardWithX [candX, candY]).1.board
            [candX, candY]).1.board = (addItems happyOracle boardWithX [candX, candY]).1.board
        ∧ memberFin (addItems happyOracle (addItems happyOracle boardWithX
            [candX, candY]).1.board [candX, candY]).1.board
            = memberFin (addItems happyOracle boardWithX [candX, candY]).1.board) :=
  ⟨rfl, fun _ => rfl,
    addItems_second_run_noop happyOracle boardWithX [candX, candY] rfl (fun _ => rfl)⟩

lemma ndContentIDs_cons_skip {item : Item} {rest : List Item}
    (h : item.nodeID = "" ∨ item.type = "DraftIssue") :
    ndContentIDs (item :: rest) = ndContentIDs rest := by
  rcases h with h | h <;> simp [ndContentIDs, h]

lemma ndContentIDs_cons {item : Item} {rest : List Item}
    (h1 : item.nodeID ≠ "") (h2 : item.type ≠ "DraftIssue") :
    ndContentIDs (item :: rest) = item.nodeID :: ndContentIDs rest := by
  simp [ndContentIDs, h1, h2]

lemma indexIDs_subset_memberIDs {b : Board} {x : String} (h : x ∈ indexIDs b) :
    x ∈ memberIDs b := by
  rw [mem_indexIDs] at h
  rw [mem_memberIDs]
  obtain ⟨it, hmem, _, hcid, hne⟩ := h
  exact ⟨it, hmem, hcid, hne⟩

lemma nd_subset_current {items : List Item} {x : String} (h : x ∈ ndContentIDs items) :
    x ∈ currentContentIDs items := by
  rw [mem_ndContentIDs] at h
  rw [mem_currentContentIDs]
  obtain ⟨it, hmem, hid, hne, _⟩ := h
  exact ⟨it, hmem, hid, hne⟩

lemma addLoop_member_iff (o : Oracle) (ex : List String) (hadd : ∀ id, o.addOK id = true) :
    ∀ (items : List Item) (st : AddOut),
      (∀ id ∈ ex, id ∈ memberIDs st.board) →
      ∀ x, (x ∈ memberIDs (addLoop o ex items st).board
        ↔ x ∈ memberIDs st.board ∨ x ∈ ndContentIDs items) := by
  intro items
  induction items with
  | nil => intro st _ x; simp [addLoop, ndContentIDs]
  | cons item rest ih =>
    intro st hsub x
    by_cases h1 : item.nodeID = ""
    · rw [addLoop_cons_empty h1, ndContentIDs_cons_skip (Or.inl h1)]
      exact ih { st with skipped := st.skipped + 1 } hsub x
    by_cases h2 : item.type = "DraftIssue"
    · rw [addLoop_cons_draft h1 h2, ndContentIDs_cons_skip (Or.inr h2)]
      exact ih { st with skipped := st.skipped + 1 } hsub x
    rw [ndContentIDs_cons h1 h2]
    by_cases h3 : item.nodeID ∈ ex
    · rw [addLoop_cons_present h1 h2 h3]
      have hid : item.nodeID ∈ memberIDs st.board := hsub _ h3
      have hx : x = item.nodeID → x ∈ memberIDs st.board := fun h => h ▸ hid
      rw [ih { st with skipped := st.skipped + 1 } hsub x, List.mem_cons]
      tauto
    · rw [addLoop_cons_new_ok h1 h2 h3 (hadd item.nodeID)]
      have hgrow : ∀ id ∈ ex, id ∈ memberIDs (appendItem st.board item) := by
        intro id hid
        rw [memberIDs_appendItem h1]
        exact List.mem_append_left _ (hsub id hid)
      rw [ih
        { st with
          board := appendItem st.board item
          added := st.added + 1
          events := st.events ++ [Event.addMut item.nodeID] }
        hgrow x]
      show x ∈ memberIDs (appendItem st.board item) ∨ _ ↔ _
      rw [memberIDs_appendItem h1, List.mem_append, List.mem_singleton, List.mem_cons]
      tauto

lemma addItems_member_iff (o : Oracle) (b : Board) (items : List Item)
    (hadd : ∀ id, o.addOK id = true) (x : String) :
    x ∈ memberIDs (addItems o b items).1.board
      ↔ x ∈ memberIDs b ∨ x ∈ ndContentIDs items := by
  have hsub : ∀ id ∈ (if o.indexReadOK then indexIDs b else []),
      id ∈ memberIDs (⟨b, 0, 0, []⟩ : AddOut).board := by
    intro id hid
    by_cases h : o.indexReadOK
    · rw [if_pos h] at hid
      exact indexIDs_subset_memberIDs hid
    · rw [if_neg h] at hid
      simp at hid
  simpa [addItems] using
    addLoop_member_iff o (if o.indexReadOK then indexIDs b else []) hadd items ⟨b, 0, 0, []⟩ hsub x

lemma removeStale_member_iff (o : Oracle) (b : Board) (items : List Item)
    (hread : o.itemsReadOK = true) (hdel : ∀ id, o.deleteOK id = true) (x : String) :
    x ∈ memberIDs (removeStaleItems o b items).board
      ↔ x ∈ memberIDs b ∧ x ∈ currentContentIDs items := by
  simp only [removeStaleItems, hread, Bool.not_true, Bool.false_eq_true, if_false]
  constructor
  · intro hx
    rw [mem_memberIDs] at hx
    obtain ⟨it, hmem, hcid, hne⟩ := hx
    rw [List.mem_filter] at hmem
    obtain ⟨hmem, hpred⟩ := hmem
    refine ⟨mem_memberIDs.mpr ⟨it, hmem, hcid, hne⟩, ?_⟩
    simp only [isStale, hdel, Bool.and_true, Bool.not_eq_true', Bool.and_eq_false_iff,
      bne_eq_false_iff_eq, Bool.not_eq_false'] at hpred
    rcases hpred with h | h
    · exact absurd (hcid ▸ h) hne
    · simpa [hcid] using h
  · rintro ⟨hmemb, hcur⟩
    rw [mem_memberIDs] at hmemb
    obtain ⟨it, hmem, hcid, hne⟩ := hmemb
    rw [mem_memberIDs]
    refine ⟨it, ?_, hcid, hne⟩
    rw [List.mem_filter]
    refine ⟨hmem, ?_⟩
    simp [isStale, hdel, hcid, hcur]

/-- C2 (amended): set behaviour of one synchronizer run, assuming the
membership reads and every add and delete mutation succeed.  Without
prune, post-run membership by content identifier is E ∪ C_nd; with prune
it is (E ∩ C) ∪ C_nd, where E is the pre-run membership, C the set of all
candidate content identifiers and C_nd the set contributed by non-draft
candidates (draft-issue candidates are never added, so they enter the
result only if already present).  When no candidate is a draft issue,
C_nd = C and this is exactly the claimed E ∪ C / exactly-C behaviour. -/
theorem sync_membership_sets (o : Oracle) (b : Board) (items : List Item)
    (hadd : ∀ id, o.addOK id = true) (hread : o.itemsReadOK = true)
    (hdel : ∀ id, o.deleteOK id = true) :
    memberFin (addItems o b items).1.board = memberFin b ∪ candFinND items
      ∧ memberFin (removeStaleItems o (addItems o b items).1.board items).board
          = (memberFin b ∩ candFinAll items) ∪ candFinND items := by
  constructor
  · ext x
    simp only [memberFin, candFinND, List.mem_toFinset, Finset.mem_union]
    exact addItems_member_iff o b items hadd x
  · ext x
    simp only [memberFin, candFinND, candFinAll, List.mem_toFinset, Finset.mem_union,
      Finset.mem_inter]
    rw [removeStale_member_iff o _ items hread hdel x, addItems_member_iff o b items hadd x]
    have hnd : x ∈ ndContentIDs items → x ∈ currentContentIDs items := nd_subset_current
    tauto

/-- C2 witness: board initially holding X1, candidate list [Y1], pruning
run on the all-success transport: membership is {X1, Y1} after the add
phase and exactly {Y1} after the prune. -/
theorem sync_membership_sets_witness :
    (∀ id, happyOracle.addOK id = true) ∧ happyOracle.itemsReadOK = true
      ∧ (∀ id, happyOracle.deleteOK id = true)
      ∧ (memberFin (addItems happyOracle boardWithX [candY]).1.board
            = memberFin boardWithX ∪ candFinND [candY]
        ∧ memberFin (removeStaleItems happyOracle
              (addItems happyOracle boardWithX [candY]).1.board [candY]).board
            = (memberFin boardWithX ∩ candFinAll [candY]) ∪ candFinND [candY]) :=
  ⟨fun _ => rfl, rfl, fun _ => rfl,
    sync_membership_sets happyOracle boardWithX [candY] (fun _ => rfl) rfl (fun _ => rfl)⟩

/-- C2 counterexample: a draft-issue candidate has a content identifier but
is never added, so on an empty board the post-run membership (without
prune) is ∅, not E ∪ C = {D1}; the claimed equality fails as stated. -/
theorem sync_membership_claim_false :
    memberFin (addItems happyOracle emptyBoard [candDraft]).1.board
      ≠ memberFin emptyBoard ∪ candFinAll [candDraft] := by
  decide

lemma currentContentIDs_cons_empty {item : Item} {rest : List Item} (h : item.nodeID = "") :
    currentContentIDs (item :: rest) = currentContentIDs rest := by
  simp [currentContentIDs, h]

lemma currentContentIDs_cons {item : Item} {rest : List Item} (h : item.nodeID ≠ "") :
    currentContentIDs (item :: rest) = item.nodeID :: currentContentIDs rest := by
  simp [currentContentIDs, h]

lemma addLoop_nodup (o : Oracle) (ex : List String) :
    ∀ (items : List Item) (st : AddOut),
      (memberIDs st.board).Nodup →
      (currentContentIDs items).Nodup →
      (∀ item ∈ items, item.nodeID ≠ "" → item.type ≠ "DraftIssue" → item.nodeID ∉ ex →
        item.nodeID ∉ memberIDs st.board) →
      (memberIDs (addLoop o ex items st).board).Nodup := by
  intro items
  induction items with
  | nil => intro st hb _ _; simpa [addLoop] using hb
  | cons item rest ih =>
    intro st hb hc hnew
    have hnewtail : ∀ it ∈ rest, it.nodeID ≠ "" → it.type ≠ "DraftIssue" → it.nodeID ∉ ex →
        it.nodeID ∉ memberIDs st.board :=
      fun it hit => hnew it (List.mem_cons_of_mem _ hit)
    by_cases h1 : item.nodeID = ""
    · rw [addLoop_cons_empty h1]
      rw [currentContentIDs_cons_empty h1] at hc
      exact ih { st with skipped := st.skipped + 1 } hb hc hnewtail
    have hc' : (currentContentIDs rest).Nodup := by
      rw [currentContentIDs_cons h1] at hc
      exact (List.nodup_cons.mp hc).2
    have hcnot : item.nodeID ∉ currentContentIDs rest := by
      rw [currentContentIDs_cons h1] at hc
      exact (List.nodup_cons.mp hc).1
    by_cases h2 : item.type = "DraftIssue"
    · rw [addLoop_cons_draft h1 h2]
      exact ih { st with skipped := st.skipped + 1 } hb hc' hnewtail
    by_cases h3 : item.nodeID ∈ ex
    · rw [addLoop_cons_present h1 h2 h3]
      exact ih { st with skipped := st.skipped + 1 } hb hc' hnewtail
    by_cases h4 : o.addOK item.nodeID = true
    · rw [addLoop_cons_new_ok h1 h2 h3 h4]
      have hnotin : item.nodeID ∉ memberIDs st.board := hnew item (by simp) h1 h2 h3
      have hb' : (memberIDs (appendItem st.board item)).Nodup := by
        rw [memberIDs_appendItem h1]
        simp [List.nodup_append, hb, hnotin]
      have hnew' : ∀ it ∈ rest, it.nodeID ≠ "" → it.type ≠ "DraftIssue" → it.nodeID ∉ ex →
          it.nodeID ∉ memberIDs (appendItem st.board item) := by
        intro it hit hne hnd hnx
        rw [memberIDs_appendItem h1, List.mem_append, List.mem_singleton]
        push_neg
        refine ⟨hnewtail it hit hne hnd hnx, ?_⟩
        intro heq
        exact hcnot (heq ▸ mem_currentContentIDs.mpr ⟨it, hit, rfl, hne⟩)
      exact ih
        { st with
          board := appendItem st.board item
          added := st.added + 1
          events := st.events ++ [Event.addMut item.nodeID] }
        hb' hc' hnew'
    · rw [Bool.not_eq_true] at h4
      rw [addLoop_cons_new_fail h1 h2 h3 h4]
      exact ih
        { st with
          skipped := st.skipped + 1
          events := st.events ++ [Event.addMut item.nodeID] }
        hb hc' hnewtail

lemma addLoop_events_count (o : Oracle) (ex : List String) :
    ∀ (items : List Item) (st : AddOut) (id : String),
      ((addLoop o ex items st).events.count (Event.addMut id))
        ≤ st.events.count (Event.addMut id) + (currentContentIDs items).count id := by
  intro items
  induction items with
  | nil => intro st id; simp [addLoop, currentContentIDs]
  | cons item rest ih =>
    intro st id
    by_cases h1 : item.nodeID = ""
    · rw [addLoop_cons_empty h1, currentContentIDs_cons_empty h1]
      exact ih { st with skipped := st.skipped + 1 } id
    rw [currentContentIDs_cons h1, List.count_cons]
    by_cases h2 : item.type = "DraftIssue"
    · rw [addLoop_cons_draft h1 h2]
      have := ih { st with skipped := st.skipped + 1 } id
      dsimp only at this
      omega
    by_cases h3 : item.nodeID ∈ ex
    · rw [addLoop_cons_present h1 h2 h3]
      have := ih { st with skipped := st.skipped + 1 } id
      dsimp only at this
      omega
    have hcount : (st.events ++ [Event.addMut item.nodeID]).count (Event.addMut id)
        = st.events.count (Event.addMut id) + if id == item.nodeID then 1 else 0 := by
      rw [List.count_append]
      by_cases h : id = item.nodeID
      · simp [h]
      · simp [List.count_singleton', h, Ne.symm h]
    by_cases h4 : o.addOK item.nodeID = true
    · rw [addLoop_cons_new_ok h1 h2 h3 h4]
      have := ih
        { st with
          board := appendItem st.board item
          added := st.added + 1
          events := st.events ++ [Event.addMut item.nodeID] }
        id
      simp only [hcount] at this
      by_cases h : id = item.nodeID <;> simp [h] at this ⊢ <;> omega
    · rw [Bool.not_eq_true] at h4
      rw [addLoop_cons_new_fail h1 h2 h3 h4]
      have := ih
        { st with
          skipped := st.skipped + 1
          events := st.events ++ [Event.addMut item.nodeID] }
        id
      simp only [hcount] at this
      by_cases h : id = item.nodeID <;> simp [h] at this ⊢ <;> omega

/-- C3 (amended): after the add phase, no two board items share a content
identifier and at most one add mutation is issued per distinct content
identifier — provided the membership index read succeeds, no content
identifier occurs twice in the candidate list, the board starts without
duplicated content identifiers, and no candidate shares a content
identifier with a draft board item (whose content is invisible to the
index).  The unamended claim fails for candidate lists repeating a
content identifier, because the index is never updated during the loop. -/
theorem addItems_no_duplicate_membership (o : Oracle) (b : Board) (items : List Item)
    (hidx : o.indexReadOK = true)
    (hb : (memberIDs b).Nodup)
    (hc : (currentContentIDs items).Nodup)
    (hdraft : ∀ it ∈ b.items, it.isDraft = true → it.contentID ∉ currentContentIDs items) :
    (memberIDs (addItems o b items).1.board).Nodup
      ∧ ∀ id, ((addItems o b items).1.events.count (Event.addMut id)) ≤ 1 := by
  have hrun : (addItems o b items).1 = addLoop o (indexIDs b) items ⟨b, 0, 0, []⟩ := by
    simp [addItems, hidx]
  constructor
  · rw [hrun]
    refine addLoop_nodup o (indexIDs b) items ⟨b, 0, 0, []⟩ hb hc ?_
    intro item hmem h1 h2 h3 hcontra
    rw [mem_memberIDs] at hcontra
    obtain ⟨it, hitmem, hcid, hne⟩ := hcontra
    cases hd : it.isDraft with
    | false => exact h3 (mem_indexIDs.mpr ⟨it, hitmem, hd, hcid, hne⟩)
    | true =>
      exact hdraft it hitmem hd
        (hcid ▸ mem_currentContentIDs.mpr ⟨item, hmem, rfl, h1⟩)
  · intro id
    rw [hrun]
    have := addLoop_events_count o (indexIDs b) items ⟨b, 0, 0, []⟩ id
    have hone : (currentContentIDs items).count id ≤ 1 :=
      List.nodup_iff_count_le_one.mp hc id
    simp only [List.count_nil] at this
    omega

/-- C3 witness: a distinct-id candidate list against a board already
holding one of the candidates, on the all-success transport. -/
theorem addItems_no_duplicate_membership_witness :
    happyOracle.indexReadOK = true ∧ (memberIDs boardWithX).Nodup
      ∧ (currentContentIDs [candX, candY]).Nodup
      ∧ (∀ it ∈ boardWithX.items, it.isDraft = true →
          it.contentID ∉ currentContentIDs [candX, candY])
      ∧ ((memberIDs (addItems happyOracle boardWithX [candX, candY]).1.board).Nodup
        ∧ ∀ id,
            ((addItems happyOracle boardWithX [candX, candY]).1.events.count
              (Event.addMut id)) ≤ 1) :=
  ⟨rfl, by decide, by decide, by decide,
    addItems_no_duplicate_membership happyOracle boardWithX [candX, candY]
      rfl (by decide) (by decide) (by decide)⟩

/-- C3 counterexample: the candidate list [X1, X1] on an empty board (all
mutations succeeding) ends the add phase with two board items sharing
content identifier X1, and two add mutations were issued for X1: the
membership index is built once and never updated inside the loop. -/
theorem addItems_duplicates_claim_false :
    ¬ (memberIDs (addItems happyOracle emptyBoard [candX, candX]).1.board).Nodup
      ∧ (addItems happyOracle emptyBoard [candX, candX]).1.events.count
          (Event.addMut "X1") = 2 := by
  constructor
  · decide
  · decide

lemma setFieldStep_unresolvable {destFields : FieldMap} {fname v : String} {f : FieldDef}
    (hf : lookupFM destFields fname = some f) (ht : f.type = "SINGLE_SELECT")
    (hr : ResolveOptionID f v = none) :
    setFieldStep destFields fname v = [] := by
  by_cases hv : v = ""
  · simp [setFieldStep, hv]
  · simp [setFieldStep, hv, hf, ht, hr]

/-- C4: when a single-select destination field has no option matching the
desired value (case-insensitive exact name match, `ResolveOptionID`
returning none), no field-value mutation is issued for that entry — the
existing value is left alone — and the mutations issued for the remaining
entries are exactly those of the list without the entry. -/
theorem setItemFields_unresolvable_option_skipped (destFields : FieldMap)
    (pre post : List (String × String)) (fname v : String) (f : FieldDef)
    (hf : lookupFM destFields fname = some f) (ht : f.type = "SINGLE_SELECT")
    (hr : ResolveOptionID f v = none) :
    SetItemFields (pre ++ (fname, v) :: post) destFields
      = SetItemFields (pre ++ post) destFields := by
  induction pre with
  | nil =>
    simp only [List.nil_append, SetItemFields]
    rw [setFieldStep_unresolvable hf ht hr]
    simp
  | cons p rest ih =>
    obtain ⟨a, w⟩ := p
    simp only [List.cons_append, SetItemFields]
    exact congrArg (setFieldStep destFields a w ++ ·) ih

/-- C4 witness: value Tracked on a Status field that only has option Done
issues nothing, while the following entry is still applied. -/
theorem setItemFields_unresolvable_option_skipped_witness :
    lookupFM destFields1 "Status" = some statusField
      ∧ statusField.type = "SINGLE_SELECT"
      ∧ ResolveOptionID statusField "Tracked" = none
      ∧ SetItemFields ([] ++ ("Status", "Tracked") :: [("Status", "Done")]) destFields1
          = SetItemFields ([] ++ [("Status", "Done")]) destFields1 :=
  ⟨by decide, rfl, by decide,
    setItemFields_unresolvable_option_skipped destFields1 [] [("Status", "Done")]
      "Status" "Tracked" statusField (by decide) rfl (by decide)⟩

/-- C10: `removeStaleItems` never issues a delete mutation for a board item
whose content identifier is empty, and every such item is still on the
board afterwards, whatever the candidate list and transport behaviour. -/
theorem removeStaleItems_preserves_contentless (o : Oracle) (b : Board) (items : List Item) :
    (∀ iid cid, Event.deleteMut iid cid ∈ (removeStaleItems o b items).events → cid ≠ "")
      ∧ ∀ it ∈ b.items, it.contentID = "" → it ∈ (removeStaleItems o b items).board.items := by
  by_cases hread : o.itemsReadOK = true
  · constructor
    · intro iid cid hmem
      simp only [removeStaleItems, hread, Bool.not_true, Bool.false_eq_true, if_false] at hmem
      rw [List.mem_map] at hmem
      obtain ⟨it, hit, heq⟩ := hmem
      rw [List.mem_filter] at hit
      cases heq
      have hstale := hit.2
      simp only [isStale, Bool.and_eq_true, bne_iff_ne, ne_eq] at hstale
      exact hstale.1
    · intro it hit h
      simp only [removeStaleItems, hread, Bool.not_true, Bool.false_eq_true, if_false]
      rw [List.mem_filter]
      exact ⟨hit, by simp [isStale, h]⟩
  · rw [Bool.not_eq_true] at hread
    constructor
    · intro iid cid hmem
      simp [removeStaleItems, hread] at hmem
    · intro it hit h
      simpa [removeStaleItems, hread] using hit

/-- C10 witness: an item whose content could not be read survives a pruning
run with an empty candidate list on the all-success transport. -/
theorem removeStaleItems_preserves_contentless_witness :
    contentlessItem ∈ (removeStaleItems happyOracle boardContentless []).board.items :=
  (removeStaleItems_preserves_contentless happyOracle boardContentless []).2
    contentlessItem (by decide) rfl

lemma findProject_err_none (o : Oracle) : (FindProject o).2 = none := by
  rcases hu : o.userFind with u | op
  · rcases ho : o.orgFind with v | op2
    · simp [FindProject, hu, ho]
    · rcases op2 with _ | p <;> simp [FindProject, hu, ho]
  · rcases op with _ | p
    · rcases ho : o.orgFind with v | op2
      · simp [FindProject, hu, ho]
      · rcases op2 with _ | p2 <;> simp [FindProject, hu, ho]
    · simp [FindProject, hu]

lemma addItems_err_none (o : Oracle) (b : Board) (items : List Item) :
    (addItems o b items).2 = none := rfl

lemma updateBoardRest_ok (o : Oracle) (config : Config) (b : Board) (items : List Item)
    (ev0 : List Event) :
    (updateBoardRest o config b items ev0).err = none
      ∧ (updateBoardRest o config b items ev0).summaryPrinted = true := by
  by_cases hs : config.sync <;> simp [updateBoardRest, addItems, hs]

lemma updateBoard_cases (o : Oracle) (config : Config) (b : Board) (items : List Item) :
    (¬ boardResolutionFails o
        ∧ (UpdateBoard o config b items).err = none
        ∧ (UpdateBoard o config b items).summaryPrinted = true)
      ∨ (boardResolutionFails o
        ∧ (UpdateBoard o config b items).err ≠ none
        ∧ (UpdateBoard o config b items).summaryPrinted = false) := by
  have hferr := findProject_err_none o
  rcases hp : (FindProject o).1 with _ | p
  · rcases hc : o.create with e | q
    · refine Or.inr ⟨⟨hp, e, hc⟩, ?_, ?_⟩ <;>
        simp [UpdateBoard, hferr, hp, hc]
    · refine Or.inl ⟨?_, ?_, ?_⟩
      · rintro ⟨_, e, he⟩
        rw [hc] at he
        cases he
      · have h := (updateBoardRest_ok o config b items [Event.createProj]).1
        simpa [UpdateBoard, hferr, hp, hc] using h
      · have h := (updateBoardRest_ok o config b items [Event.createProj]).2
        simpa [UpdateBoard, hferr, hp, hc] using h
  · refine Or.inl ⟨?_, ?_, ?_⟩
    · rintro ⟨hnone, _⟩
      rw [hp] at hnone
      cases hnone
    · have h := (updateBoardRest_ok o config b items []).1
      simpa [UpdateBoard, hferr, hp] using h
    · have h := (updateBoardRest_ok o config b items []).2
      simpa [UpdateBoard, hferr, hp] using h

/-- C5: `UpdateBoard` returns a hard error and skips the final board-URL
summary exactly when board resolution fails (no project found and creation
failed); per-item add failures, repository-link failures and stale-removal
failures never produce an error and the summary line is still printed. -/
theorem updateBoard_fatal_iff_resolution (o : Oracle) (config : Config) (b : Board)
    (items : List Item) :
    ((UpdateBoard o config b items).err ≠ none ↔ boardResolutionFails o)
      ∧ ((UpdateBoard o config b items).summaryPrinted = true ↔ ¬ boardResolutionFails o) := by
  rcases updateBoard_cases o config b items with ⟨hf, he, hs⟩ | ⟨hf, he, hs⟩
  · constructor
    · constructor
      · intro h; exact absurd he h
      · intro h; exact absurd h hf
    · constructor
      · intro _; exact hf
      · intro _; exact hs
  · constructor
    · constructor
      · intro _; exact hf
      · intro _; exact he
    · constructor
      · intro h; rw [hs] at h; cases h
      · intro h; exact absurd hf h

/-- C8: `FindProject` reports a nil error for every transport behaviour —
even when both the user and the organization queries fail — so a lookup
failure is indistinguishable from project-not-found, and whenever the
lookup yields nothing the orchestrator responds by attempting to create a
new board. -/
theorem findProject_never_fails (o : Oracle) (config : Config) (b : Board)
    (items : List Item) :
    (FindProject o).2 = none
      ∧ ((FindProject o).1 = none →
          Event.createProj ∈ (UpdateBoard o config b items).events) := by
  refine ⟨findProject_err_none o, ?_⟩
  intro hp
  rcases hc : o.create with e | q
  · simp [UpdateBoard, findProject_err_none o, hp, hc]
  · simp only [UpdateBoard, findProject_err_none o, hp, hc, updateBoardRest, addItems]
    split <;> simp

/-- C8 witness: transport failing both search queries and creation: the
lookup reports success-with-no-project and the run attempts creation. -/
theorem findProject_never_fails_witness :
    (FindProject resolutionFailOracle).2 = none
      ∧ ((FindProject resolutionFailOracle).1 = none
        ∧ Event.createProj ∈ (UpdateBoard resolutionFailOracle cfgSync emptyBoard []).events) :=
  ⟨(findProject_never_fails resolutionFailOracle cfgSync emptyBoard []).1,
    rfl, (findProject_never_fails resolutionFailOracle cfgSync emptyBoard []).2 rfl⟩

lemma addLoop_events_shape (o : Oracle) (ex : List String) :
    ∀ (items : List Item) (st : AddOut),
      ∀ e ∈ (addLoop o ex items st).events, e ∈ st.events ∨ ∃ id, e = Event.addMut id := by
  intro items
  induction items with
  | nil => intro st e he; exact Or.inl (by simpa [addLoop] using he)
  | cons item rest ih =>
    intro st e he
    by_cases h1 : item.nodeID = ""
    · rw [addLoop_cons_empty h1] at he
      exact ih { st with skipped := st.skipped + 1 } e he
    by_cases h2 : item.type = "DraftIssue"
    · rw [addLoop_cons_draft h1 h2] at he
      exact ih { st with skipped := st.skipped + 1 } e he
    by_cases h3 : item.nodeID ∈ ex
    · rw [addLoop_cons_present h1 h2 h3] at he
      exact ih { st with skipped := st.skipped + 1 } e he
    by_cases h4 : o.addOK item.nodeID = true
    · rw [addLoop_cons_new_ok h1 h2 h3 h4] at he
      rcases ih
        { st with
          board := appendItem st.board item
          added := st.added + 1
          events := st.events ++ [Event.addMut item.nodeID] } e he with hin | hnew
      · dsimp only at hin
        rcases List.mem_append.mp hin with h | h
        · exact Or.inl h
        · exact Or.inr ⟨item.nodeID, by simpa using h⟩
      · exact Or.inr hnew
    · rw [Bool.not_eq_true] at h4
      rw [addLoop_cons_new_fail h1 h2 h3 h4] at he
      rcases ih
        { st with
          skipped := st.skipped + 1
          events := st.events ++ [Event.addMut item.nodeID] } e he with hin | hnew
      · dsimp only at hin
        rcases List.mem_append.mp hin with h | h
        · exact Or.inl h
        · exact Or.inr ⟨item.nodeID, by simpa using h⟩
      · exact Or.inr hnew

lemma addItems_events_shape (o : Oracle) (b : Board) (items : List Item) :
    ∀ e ∈ (addItems o b items).1.events, ∃ id, e = Event.addMut id := by
  intro e he
  have h := addLoop_events_shape o (if o.indexReadOK then indexIDs b else []) items
    ⟨b, 0, 0, []⟩ e (by simpa [addItems] using he)
  rcases h with h | h
  · simp at h
  · exact h

lemma linkLoop_events_shape (o : Oracle) :
    ∀ (repos : List String) (st : LinkOut),
      ∀ e ∈ (linkLoop o repos st).events, e ∈ st.events ∨ ∃ rid, e = Event.linkMut rid := by
  intro repos
  induction repos with
  | nil => intro st e he; exact Or.inl (by simpa [linkLoop] using he)
  | cons repo rest ih =>
    intro st e he
    rcases hsp : splitRepoN2 repo with _ | ⟨ow, _ | ⟨nm, _ | ⟨z, zs⟩⟩⟩
    · simp only [linkLoop, hsp] at he
      exact ih { st with skipped := st.skipped + 1 } e he
    · simp only [linkLoop, hsp] at he
      exact ih { st with skipped := st.skipped + 1 } e he
    · simp only [linkLoop, hsp] at he
      rcases hr : o.repoID ow nm with u | rid
      · simp only [hr] at he
        exact ih { st with skipped := st.skipped + 1 } e he
      · simp only [hr] at he
        by_cases hrid : rid = ""
        · rw [if_pos hrid] at he
          exact ih { st with skipped := st.skipped + 1 } e he
        · rw [if_neg hrid] at he
          rcases hl : o.linkErr rid with _ | msg
          · simp only [hl] at he
            rcases ih
              { st with
                linked := st.linked + 1
                events := st.events ++ [Event.linkMut rid] } e he with hin | hnew
            · dsimp only at hin
              rcases List.mem_append.mp hin with h | h
              · exact Or.inl h
              · exact Or.inr ⟨rid, by simpa using h⟩
            · exact Or.inr hnew
          · simp only [hl] at he
            rcases ih
              { st with
                skipped := st.skipped + 1
                events := st.events ++ [Event.linkMut rid] } e he with hin | hnew
            · dsimp only at hin
              rcases List.mem_append.mp hin with h | h
              · exact Or.inl h
              · exact Or.inr ⟨rid, by simpa using h⟩
            · exact Or.inr hnew
    · simp only [linkLoop, hsp] at he
      exact ih { st with skipped := st.skipped + 1 } e he

lemma removeStale_events_shape (o : Oracle) (b : Board) (items : List Item) :
    ∀ e ∈ (removeStaleItems o b items).events,
      ∃ iid cid, e = Event.deleteMut iid cid ∧ cid ∉ currentContentIDs items := by
  intro e he
  by_cases hread : o.itemsReadOK = true
  · simp only [removeStaleItems, hread, Bool.not_true, Bool.false_eq_true, if_false] at he
    rw [List.mem_map] at he
    obtain ⟨it, hit, heq⟩ := he
    rw [List.mem_filter] at hit
    refine ⟨it.itemID, it.contentID, heq.symm, ?_⟩
    have hstale := hit.2
    simp only [isStale, Bool.and_eq_true, bne_iff_ne, ne_eq, Bool.not_eq_true'] at hstale
    have h2 := hstale.2
    simp at h2
    exact h2
  · rw [Bool.not_eq_true] at hread
    simp [removeStaleItems, hread] at he

lemma updateBoardRest_split (o : Oracle) (config : Config) (b : Board) (items : List Item)
    (ev0 : List Event) (hsync : config.sync = true)
    (hev0 : ∀ e ∈ ev0, ∀ iid cid, e ≠ Event.deleteMut iid cid) :
    (∃ l1 l2, (updateBoardRest o config b items ev0).events = l1 ++ l2
      ∧ (∀ e ∈ l1, ∀ iid cid, e ≠ Event.deleteMut iid cid)
      ∧ (∀ e ∈ l2, ∀ cid, e ≠ Event.addMut cid))
    ∧ ∀ iid cid, Event.deleteMut iid cid ∈ (updateBoardRest o config b items ev0).events
        → cid ∉ currentContentIDs items := by
  have hrest : (updateBoardRest o config b items ev0).events
      = ev0 ++ (addItems o b items).1.events
        ++ (if config.linkRepos.isEmpty then []
            else (LinkProjectToRepositories o config.linkRepos).1.events)
        ++ (removeStaleItems o (addItems o b items).1.board items).events := by
    simp [updateBoardRest, addItems, hsync]
  have hlinksh : ∀ e ∈ (if config.linkRepos.isEmpty then []
      else (LinkProjectToRepositories o config.linkRepos).1.events),
      ∃ rid, e = Event.linkMut rid := by
    intro e he
    by_cases hl : config.linkRepos.isEmpty
    · rw [if_pos hl] at he
      simp at he
    · rw [if_neg hl] at he
      have h := linkLoop_events_shape o config.linkRepos ⟨0, 0, []⟩ e
        (by simpa [LinkProjectToRepositories] using he)
      rcases h with h | h
      · simp at h
      · exact h
  have hl1 : ∀ e ∈ ev0 ++ (addItems o b items).1.events
      ++ (if config.linkRepos.isEmpty then []
          else (LinkProjectToRepositories o config.linkRepos).1.events),
      ∀ iid cid, e ≠ Event.deleteMut iid cid := by
    intro e he iid cid
    rcases List.mem_append.mp he with he' | he'
    · rcases List.mem_append.mp he' with he'' | he''
      · exact hev0 e he'' iid cid
      · obtain ⟨id, rfl⟩ := addItems_events_shape o b items e he''
        simp
    · obtain ⟨rid, rfl⟩ := hlinksh e he'
      simp
  constructor
  · refine ⟨_, _, hrest, hl1, ?_⟩
    intro e he cid
    obtain ⟨iid, c, rfl, _⟩ := removeStale_events_shape o _ items e he
    simp
  · intro iid cid hmem
    rw [hrest] at hmem
    rcases List.mem_append.mp hmem with h | h
    · exact absurd rfl (hl1 _ h iid cid)
    · obtain ⟨iid', cid', heq, hnc⟩ := removeStale_events_shape o _ items _ h
      cases heq
      exact hnc

/-- C6: in a run with sync requested, the add phase issues all of its
mutations before any delete mutation (the trace splits into a delete-free
prefix and an add-free suffix), and no delete mutation ever targets an
item whose content identifier is in the current candidate set — so an
item added during the run is never deleted in the same run. -/
theorem updateBoard_adds_precede_deletes (o : Oracle) (config : Config) (b : Board)
    (items : List Item) (hsync : config.sync = true) :
    (∃ l1 l2, (UpdateBoard o config b items).events = l1 ++ l2
      ∧ (∀ e ∈ l1, ∀ iid cid, e ≠ Event.deleteMut iid cid)
      ∧ (∀ e ∈ l2, ∀ cid, e ≠ Event.addMut cid))
    ∧ ∀ iid cid, Event.deleteMut iid cid ∈ (UpdateBoard o config b items).events
        → cid ∉ currentContentIDs items := by
  have hferr := findProject_err_none o
  rcases hp : (FindProject o).1 with _ | p
  · rcases hc : o.create with e | q
    · have hev : (UpdateBoard o config b items).events = [Event.createProj] := by
        simp [UpdateBoard, hferr, hp, hc]
      rw [hev]
      refine ⟨⟨[Event.createProj], [], by simp, ?_, by simp⟩, ?_⟩
      · intro e' he' iid cid
        simp at he'
        subst he'
        simp
      · intro iid cid hmem
        simp at hmem
    · have hev : UpdateBoard o config b items
          = updateBoardRest o config b items [Event.createProj] := by
        simp [UpdateBoard, hferr, hp, hc]
      rw [hev]
      refine updateBoardRest_split o config b items [Event.createProj] hsync ?_
      intro e' he' iid cid
      simp at he'
      subst he'
      simp
  · have hev : UpdateBoard o config b items = updateBoardRest o config b items [] := by
      simp [UpdateBoard, hferr, hp]
    rw [hev]
    refine updateBoardRest_split o config b items [] hsync ?_
    intro e' he'
    simp at he'

/-- C6 witness: a concrete pruning run (board holding X1, candidates
[Y1]) on the all-success transport. -/
theorem updateBoard_adds_precede_deletes_witness :
    cfgSync.sync = true
      ∧ ((∃ l1 l2, (UpdateBoard happyOracle cfgSync boardWithX [candY]).events = l1 ++ l2
          ∧ (∀ e ∈ l1, ∀ iid cid, e ≠ Event.deleteMut iid cid)
          ∧ (∀ e ∈ l2, ∀ cid, e ≠ Event.addMut cid))
        ∧ ∀ iid cid,
            Event.deleteMut iid cid ∈ (UpdateBoard happyOracle cfgSync boardWithX [candY]).events
              → cid ∉ currentContentIDs [candY]) :=
  ⟨rfl, updateBoard_adds_precede_deletes happyOracle cfgSync boardWithX [candY] rfl⟩

lemma lookupFM_insert_ne {m : FieldMap} {k n : String} {v : FieldDef} (h : k ≠ n) :
    lookupFM (insertFM m k v) n = lookupFM m n := by
  simp [insertFM, lookupFM, h]

lemma ensureLoop_stable (createRes : FieldSpec → Option FieldDef) :
    ∀ (specs : List FieldSpec) (st : EnsureState) (n : String) (fd : FieldDef),
      lookupFM st.fields n = some fd →
      lookupFM (ensureLoop createRes specs st).fields n = some fd
        ∧ (n ∈ (ensureLoop createRes specs st).createAttempts → n ∈ st.createAttempts)
        ∧ ∀ r ∈ st.reports, r ∈ (ensureLoop createRes specs st).reports := by
  intro specs
  induction specs with
  | nil =>
    intro st n fd h
    exact ⟨by simpa [ensureLoop] using h, by simp [ensureLoop], by simp [ensureLoop]⟩
  | cons spec rest ih =>
    intro st n fd h
    cases hlk : lookupFM st.fields spec.name with
    | some ef =>
      by_cases hss : (spec.type == "SINGLE_SELECT" && !spec.options.isEmpty) = true
      · have hstep : ensureLoop createRes (spec :: rest) st
            = ensureLoop createRes rest
              { st with reports :=
                  st.reports ++ [(spec.name, countMissingOptions ef spec.options)] } := by
          simp [ensureLoop, hlk, hss]
        rw [hstep]
        obtain ⟨e1, e2, e3⟩ := ih
          { st with reports :=
              st.reports ++ [(spec.name, countMissingOptions ef spec.options)] } n fd h
        exact ⟨e1, e2, fun r hr => e3 r (List.mem_append_left _ hr)⟩
      · have hstep : ensureLoop createRes (spec :: rest) st = ensureLoop createRes rest st := by
          simp only [ensureLoop, hlk]
          rw [if_neg hss]
        rw [hstep]
        exact ih st n fd h
    | none =>
      have hne : spec.name ≠ n := by
        intro heq
        rw [heq, h] at hlk
        cases hlk
      cases hcr : createRes spec with
      | none =>
        have hstep : ensureLoop createRes (spec :: rest) st
            = ensureLoop createRes rest
              { st with createAttempts := st.createAttempts ++ [spec.name] } := by
          simp [ensureLoop, hlk, hcr]
        rw [hstep]
        obtain ⟨e1, e2, e3⟩ := ih
          { st with createAttempts := st.createAttempts ++ [spec.name] } n fd h
        refine ⟨e1, ?_, e3⟩
        intro hin
        have := e2 hin
        dsimp only at this
        rcases List.mem_append.mp this with h' | h'
        · exact h'
        · exact absurd (List.mem_singleton.mp h').symm hne
      | some fd' =>
        have hstep : ensureLoop createRes (spec :: rest) st
            = ensureLoop createRes rest
              { st with
                createAttempts := st.createAttempts ++ [spec.name]
                fields := insertFM st.fields spec.name fd' } := by
          simp [ensureLoop, hlk, hcr]
        rw [hstep]
        have h' : lookupFM (insertFM st.fields spec.name fd') n = some fd := by
          rw [lookupFM_insert_ne hne]
          exact h
        obtain ⟨e1, e2, e3⟩ := ih
          { st with
            createAttempts := st.createAttempts ++ [spec.name]
            fields := insertFM st.fields spec.name fd' } n fd h'
        refine ⟨e1, ?_, e3⟩
        intro hin
        have := e2 hin
        dsimp only at this
        rcases List.mem_append.mp this with h'' | h''
        · exact h''
        · exact absurd (List.mem_singleton.mp h'').symm hne

lemma ensureLoop_report (createRes : FieldSpec → Option FieldDef) :
    ∀ (specs : List FieldSpec) (st : EnsureState) (spec : FieldSpec) (fd : FieldDef),
      spec ∈ specs →
      lookupFM st.fields spec.name = some fd →
      spec.type = "SINGLE_SELECT" → spec.options ≠ [] →
      (spec.name, countMissingOptions fd spec.options)
        ∈ (ensureLoop createRes specs st).reports := by
  intro specs
  induction specs with
  | nil => intro st spec fd hmem; simp at hmem
  | cons s rest ih =>
    intro st spec fd hmem h ht ho
    rcases List.mem_cons.mp hmem with rfl | hmem'
    · have hss : (spec.type == "SINGLE_SELECT" && !spec.options.isEmpty) = true := by
        simp [ht, ho]
      have hstep : ensureLoop createRes (spec :: rest) st
          = ensureLoop createRes rest
            { st with reports :=
                st.reports ++ [(spec.name, countMissingOptions fd spec.options)] } := by
        simp [ensureLoop, h, hss]
      rw [hstep]
      have hfd : lookupFM ({ st with reports :=
          st.reports ++ [(spec.name, countMissingOptions fd spec.options)] } :
            EnsureState).fields spec.name = some fd := h
      obtain ⟨_, _, e3⟩ := ensureLoop_stable createRes rest _ spec.name fd hfd
      exact e3 _ (by simp)
    · cases hlk : lookupFM st.fields s.name with
      | some ef =>
        by_cases hss : (s.type == "SINGLE_SELECT" && !s.options.isEmpty) = true
        · have hstep : ensureLoop createRes (s :: rest) st
              = ensureLoop createRes rest
                { st with reports :=
                    st.reports ++ [(s.name, countMissingOptions ef s.options)] } := by
            simp [ensureLoop, hlk, hss]
          rw [hstep]
          exact ih _ spec fd hmem' h ht ho
        · have hstep : ensureLoop createRes (s :: rest) st = ensureLoop createRes rest st := by
            simp only [ensureLoop, hlk]
            rw [if_neg hss]
          rw [hstep]
          exact ih st spec fd hmem' h ht ho
      | none =>
        have hne : s.name ≠ spec.name := by
          intro heq
          rw [heq, h] at hlk
          cases hlk
        cases hcr : createRes s with
        | none =>
          have hstep : ensureLoop createRes (s :: rest) st
              = ensureLoop createRes rest
                { st with createAttempts := st.createAttempts ++ [s.name] } := by
            simp [ensureLoop, hlk, hcr]
          rw [hstep]
          exact ih _ spec fd hmem' h ht ho
        | some fd' =>
          have hstep : ensureLoop createRes (s :: rest) st
              = ensureLoop createRes rest
                { st with
                  createAttempts := st.createAttempts ++ [s.name]
                  fields := insertFM st.fields s.name fd' } := by
            simp [ensureLoop, hlk, hcr]
          rw [hstep]
          refine ih _ spec fd hmem' ?_ ht ho
          show lookupFM (insertFM st.fields s.name fd') spec.name = some fd
          rw [lookupFM_insert_ne hne]
          exact h

/-- C7: a FieldSpec whose name is already in the destination field map
causes no create mutation in `EnsureFields` and its map entry is returned
unchanged; when such a spec is SINGLE_SELECT with requested options, the
count of requested options missing from the existing field (compared
case-insensitively by name, `countMissingOptions`) is computed and
surfaced instead of the option set being patched. -/
theorem ensureFields_existing_field_untouched (createRes : FieldSpec → Option FieldDef)
    (specs : List FieldSpec) (existing : FieldMap) (spec : FieldSpec) (fd : FieldDef)
    (hmem : spec ∈ specs)
    (hlk : lookupFM existing spec.name = some fd) :
    lookupFM (EnsureFields createRes specs existing).fields spec.name = some fd
      ∧ spec.name ∉ (EnsureFields createRes specs existing).createAttempts
      ∧ (spec.type = "SINGLE_SELECT" → spec.options ≠ [] →
          (spec.name, countMissingOptions fd spec.options)
            ∈ (EnsureFields createRes specs existing).reports) := by
  obtain ⟨h1, h2, _⟩ := ensureLoop_stable createRes specs ⟨existing, [], []⟩ spec.name fd hlk
  refine ⟨h1, ?_, ?_⟩
  · intro hin
    have := h2 hin
    simp at this
  · intro ht ho
    exact ensureLoop_report createRes specs ⟨existing, [], []⟩ spec fd hmem hlk ht ho

/-- C7 witness: the Status spec against a board already holding a Status
field missing the Tracked option: no creation, entry unchanged, missing
count surfaced. -/
theorem ensureFields_existing_field_untouched_witness :
    specStatus ∈ [specStatus]
      ∧ lookupFM destFields1 specStatus.name = some statusField
      ∧ (lookupFM (EnsureFields noCreate [specStatus] destFields1).fields specStatus.name
            = some statusField
        ∧ specStatus.name ∉ (EnsureFields noCreate [specStatus] destFields1).createAttempts
        ∧ (specStatus.type = "SINGLE_SELECT" → specStatus.options ≠ [] →
            (specStatus.name, countMissingOptions statusField specStatus.options)
              ∈ (EnsureFields noCreate [specStatus] destFields1).reports)) :=
  ⟨by decide, by decide,
    ensureFields_existing_field_untouched noCreate [specStatus] destFields1 specStatus
      statusField (by decide) (by decide)⟩

end BoardSync
